import Mathlib

/-!
Shallow embedding of the day-8 bytecode interpreter from
`src/day-8/src/main.rs`: the three-opcode instruction set, the executor
`accumulate_from_instructions` with loop detection via a visited-transition
map, the loop-path extractor `get_possibly_broken_instructions`, and the
single-swap repair search `accumulate_and_fix_broken_instruction`.

Modelling conventions:
* The accumulator is an `i64`, modelled as `Int` (its additions cannot be
  observed to overflow by any claim here).
* Positions are `u32` in the source, modelled as `Nat`; the machine
  representation is observable in `jump_index`, whose `i64` sum wraps on
  overflow (see `i64_wrap` and `jump_index_eq_i64_wrap`) and whose
  `as u32` cast truncates, made explicit as `% 4294967296` (`2 ^ 32`).
* The `HashMap<u32, u32>` is modelled as an association list consed at the
  front; `TransMap.get` returns the most recent binding, which agrees with
  `HashMap` lookup semantics.
* The Rust `loop`s are modelled with explicit fuel; `none` means the fuel
  ran out (potential divergence).  The executor is run with fuel
  `length + 1`, which is proved sufficient below.
* A Rust panic (`unwrap` on a missing key, indexing out of bounds) is
  modelled by an explicit `panicked` result constructor.
-/

/-- Rust enum `OP`: `Nop(i64)`, `Acc(i64)`, `Jmp(i64)`. -/
inductive OP where
  | Nop (num : Int)
  | Acc (num : Int)
  | Jmp (num : Int)
  deriving DecidableEq

/-- Wrap-around of an exact integer into the signed 64-bit range: the value
of the `i64` congruent to `x` modulo `2^64`.  Models Rust's wrapping `i64`
addition (the release-build behavior; a debug build panics on overflow). -/
def i64_wrap (x : Int) : Int :=
  (x + 9223372036854775808) % 18446744073709551616 - 9223372036854775808

/-- Rust `fn jump_index(index: u32, change: i64) -> u32`:
`match change + index as i64 { i if i >= 0 => i as u32, _ => 0 }`.
The sum `change + index as i64` is computed in `i64`, which wraps on
overflow.  On the program's input domain — `change` a representable `i64`,
`index < 2^32` — the exact sum lies in `[-2^63, 2^63 + 2^32)`, so the
wrapped sum is non-negative exactly when the exact sum lies in
`[0, 2^63)`: an upper overflow wraps to a negative `i64` and takes the
`_ => 0` arm (a debug build panics there instead; in neither build is the
truncated exact sum returned).  Hence the guard below; the agreement with
the literal wrap-then-test translation is proved in
`jump_index_eq_i64_wrap`.  The `as u32` cast truncates to the low 32 bits,
hence the `% 4294967296`. -/
def jump_index (index : Nat) (change : Int) : Nat :=
  let moved := change + (index : Int)
  if 0 ≤ moved ∧ moved < 9223372036854775808 then moved.toNat % 4294967296 else 0

/-- Rust `fn nop_index(index: u32) -> u32 { index + 1 }`.  In every reachable
call `index < program length ≤ u32::MAX`, so the `u32` addition is exact. -/
def nop_index (index : Nat) : Nat := index + 1

/-- The `HashMap<u32, u32>` of visited-position transitions, as an
association list (most recent binding first). -/
abbrev TransMap := List (Nat × Nat)

/-- `HashMap::get`: the most recently inserted binding for the key wins. -/
def TransMap.get : TransMap → Nat → Option Nat
  | [], _ => none
  | (k, v) :: rest, q => if k = q then some v else TransMap.get rest q

/-- `HashMap::insert`.  The executor only ever inserts fresh keys (proved
below), so consing at the front is faithful. -/
def TransMap.insert (g : TransMap) (k v : Nat) : TransMap := (k, v) :: g

/-- The keys of the transition map, in reverse insertion order. -/
def TransMap.keys (g : TransMap) : List Nat := g.map Prod.fst

/-- One executed instruction of the executor's `loop` body: the
`match instructions[index as usize]` computing the new accumulator and the
next position, including the `swap_op_index` inversion guards. -/
def exec_step (swap_op_index : Option Nat) (op : OP) (index : Nat) (acc : Int) :
    Int × Nat :=
  match op with
  | OP.Acc num => (acc + num, index + 1)
  | OP.Jmp num =>
    match swap_op_index with
    | some swap_index =>
      if swap_index = index then (acc, nop_index index) else (acc, jump_index index num)
    | none => (acc, jump_index index num)
  | OP.Nop num =>
    match swap_op_index with
    | some swap_index =>
      if swap_index = index then (acc, jump_index index num) else (acc, nop_index index)
    | none => (acc, nop_index index)

/-- The executor's `loop` in `accumulate_from_instructions`, with explicit
fuel.  Per iteration: if the current position is already a key of the
visited map, report a loop; otherwise if the position is past the end,
report normal termination; otherwise execute the instruction, record the
transition, and continue. -/
def accumulate_loop (instructions : List OP) (swap_op_index : Option Nat) :
    Nat → Int → Nat → TransMap → Option (Int × Option Nat × TransMap)
  | 0, _, _, _ => none
  | fuel + 1, acc, index, visited =>
    match TransMap.get visited index with
    | some _ => some (acc, some index, visited)
    | none =>
      if h : index < instructions.length then
        let r := exec_step swap_op_index (instructions.get ⟨index, h⟩) index acc
        accumulate_loop instructions swap_op_index fuel r.1 r.2
          (TransMap.insert visited index r.2)
      else
        some (acc, none, visited)

/-- Rust `fn accumulate_from_instructions(instructions: &Vec<OP>,
swap_op_index: Option<u32>) -> (i64, Option<u32>, HashMap<u32, u32>)`.
Fuel `length + 1` is proved sufficient below, so the `getD` default is
never used. -/
def accumulate_from_instructions (instructions : List OP) (swap_op_index : Option Nat) :
    Int × Option Nat × TransMap :=
  (accumulate_loop instructions swap_op_index (instructions.length + 1) 0 0 []).getD
    (0, none, [])

/-- Iterated lookup in the transition map: `followN g n s` follows `n`
recorded transitions starting from `s`, failing if a lookup misses. -/
def followN (g : TransMap) : Nat → Nat → Option Nat
  | 0, s => some s
  | n + 1, s =>
    match TransMap.get g s with
    | none => none
    | some t => followN g n t

/-- The `j`-th position on the transition chain out of `s` (junk `0` if the
chain breaks before step `j`). -/
def orbit (g : TransMap) (s j : Nat) : Nat := (followN g j s).getD 0

/-- The list `[orbit g s j, orbit g s (j+1), ..., orbit g s (j+n-1)]`. -/
def orbit_list (g : TransMap) (s : Nat) : Nat → Nat → List Nat
  | _, 0 => []
  | j, n + 1 => orbit g s j :: orbit_list g s (j + 1) n

/-- Outcome of the loop-path extractor: the collected path, or the Rust
panic of `.get(&index).unwrap()` on a missing key. -/
inductive ExtractResult where
  | ok (path : List Nat)
  | panicked
  deriving DecidableEq

/-- The `loop` of `get_possibly_broken_instructions`, with explicit fuel:
look up the current position (panicking if absent), append the position,
stop once the next position closes the loop back to `initial_index`. -/
def extract_loop_steps (visited : TransMap) (initial_index : Nat) :
    Nat → Nat → List Nat → Option ExtractResult
  | 0, _, _ => none
  | fuel + 1, index, acc =>
    match TransMap.get visited index with
    | none => some ExtractResult.panicked
    | some next_index =>
      if next_index = initial_index then some (ExtractResult.ok (acc ++ [index]))
      else extract_loop_steps visited initial_index fuel next_index (acc ++ [index])

/-- Rust `fn get_possibly_broken_instructions(visited_instruction_graph:
&HashMap<u32, u32>, initial_index: u32) -> Vec<u32>`.  Fuel `length + 1`
is proved sufficient whenever the documented precondition (a recorded cycle
through `initial_index`) holds. -/
def get_possibly_broken_instructions (visited : TransMap) (initial_index : Nat) :
    Option ExtractResult :=
  extract_loop_steps visited initial_index (visited.length + 1) initial_index []

/-- Outcome of the repair search: the returned accumulator, a Rust panic
(out-of-bounds indexing once the candidate list is exhausted), or fuel
exhaustion of a sub-run (proved unreachable). -/
inductive FixResult where
  | value (acc : Int)
  | panicked
  | diverged
  deriving DecidableEq

/-- Whether an instruction is an `OP::Acc`. -/
def OP.is_acc : OP → Bool
  | OP.Acc _ => true
  | _ => false

/-- The candidate `loop` of `accumulate_and_fix_broken_instruction`, recast
as recursion over the suffix of the candidate vector starting at the running
index: skip `Acc` candidates, rerun the executor with the swap otherwise,
return on the first normally-terminating run.  Exhausting the list models
the Rust panic of `possibly_broken_instructions[index]` going out of
bounds; an out-of-bounds candidate models the panic of
`instructions[instruction_index as usize]`. -/
def fix_loop (instructions : List OP) : List Nat → FixResult
  | [] => FixResult.panicked
  | instruction_index :: rest =>
    match instructions[instruction_index]? with
    | none => FixResult.panicked
    | some (OP.Acc _) => fix_loop instructions rest
    | some _ =>
      let r := accumulate_from_instructions instructions (some instruction_index)
      match r.2.1 with
      | none => FixResult.value r.1
      | some _ => fix_loop instructions rest

/-- Rust `fn accumulate_and_fix_broken_instruction(instructions: &Vec<OP>)
-> i64`: run unswapped; on normal termination return the accumulator,
otherwise extract the loop path and search it for the single fixing swap. -/
def accumulate_and_fix_broken_instruction (instructions : List OP) : FixResult :=
  let r := accumulate_from_instructions instructions none
  match r.2.1 with
  | none => FixResult.value r.1
  | some initial_index =>
    match get_possibly_broken_instructions r.2.2 initial_index with
    | some (ExtractResult.ok possibly_broken) => fix_loop instructions possibly_broken
    | some ExtractResult.panicked => FixResult.panicked
    | none => FixResult.diverged

/-- Spec-side description of the swap directive ("`Jmp`↔`Nop` behavior is
inverted (operand value unchanged)"), as a program transformation. -/
def spec_swapOP : OP → OP
  | OP.Jmp num => OP.Nop num
  | OP.Nop num => OP.Jmp num
  | OP.Acc num => OP.Acc num

/-- The repair search skips candidate position `ci`: it holds an `Acc`. -/
def candidate_skipped (instructions : List OP) (ci : Nat) : Prop :=
  (instructions[ci]?).map OP.is_acc = some true

/-- Candidate position `ci` is tried (non-`Acc`) but the swapped run still
loops. -/
def candidate_loops (instructions : List OP) (ci : Nat) : Prop :=
  (instructions[ci]?).map OP.is_acc = some false ∧
  (accumulate_from_instructions instructions (some ci)).2.1 ≠ none

/-- Candidate position `ci` is tried (non-`Acc`) and the swapped run
terminates normally. -/
def candidate_fixes (instructions : List OP) (ci : Nat) : Prop :=
  (instructions[ci]?).map OP.is_acc = some false ∧
  (accumulate_from_instructions instructions (some ci)).2.1 = none

/-- Invariant carried through the executor's loop: distinct keys, keys in
bounds, the current position is where the recorded chain from position `0`
leads, and every key lies on that chain. -/
def RunInv (instructions : List OP) (g : TransMap) (index : Nat) : Prop :=
  (TransMap.keys g).Nodup ∧
  (∀ k, k ∈ TransMap.keys g → k < instructions.length) ∧
  followN g g.length 0 = some index ∧
  (∀ q, q ∈ TransMap.keys g → ∃ j, j < g.length ∧ followN g j 0 = some q)

/-- The spec's end-to-end scenario A program:
`nop +0 / acc +1 / jmp +4 / acc +3 / jmp -3 / acc -99 / acc +1 / jmp -4 / acc +6`. -/
def scenario_a : List OP :=
  [OP.Nop 0, OP.Acc 1, OP.Jmp 4, OP.Acc 3, OP.Jmp (-3), OP.Acc (-99), OP.Acc 1,
   OP.Jmp (-4), OP.Acc 6]

/-- A looping program none of whose loop-path swaps terminates: the repair
search exhausts its candidates. -/
def scenario_unfixable : List OP := [OP.Jmp 2, OP.Acc 1, OP.Jmp (-2), OP.Jmp (-3)]

/-- A lookup that succeeds means the key is present. -/
lemma TransMap.get_some_mem {g : TransMap} {q v : Nat} (h : TransMap.get g q = some v) :
    q ∈ TransMap.keys g := by
  induction g with
  | nil => simp [TransMap.get] at h
  | cons e rest ih =>
    obtain ⟨k, w⟩ := e
    by_cases hk : k = q
    · subst hk; simp [TransMap.keys]
    · rw [TransMap.get, if_neg hk] at h
      simp [TransMap.keys] at ih ⊢
      exact Or.inr (ih h)

/-- A lookup that fails means the key is absent. -/
lemma TransMap.get_none_not_mem {g : TransMap} {q : Nat} (h : TransMap.get g q = none) :
    q ∉ TransMap.keys g := by
  induction g with
  | nil => simp [TransMap.keys]
  | cons e rest ih =>
    obtain ⟨k, w⟩ := e
    by_cases hk : k = q
    · subst hk; simp [TransMap.get] at h
    · rw [TransMap.get, if_neg hk] at h
      have hrest := ih h
      rw [TransMap.keys] at hrest ⊢
      simp only [List.map_cons]
      intro hc
      rcases List.mem_cons.mp hc with hc | hc
      · exact hk hc.symm
      · exact hrest hc

/-- Lookup after inserting the key itself. -/
lemma TransMap.get_insert_self (g : TransMap) (k v : Nat) :
    TransMap.get (TransMap.insert g k v) k = some v := by
  simp [TransMap.insert, TransMap.get]

/-- Keys after an insertion. -/
lemma TransMap.keys_insert (g : TransMap) (k v : Nat) :
    TransMap.keys (TransMap.insert g k v) = k :: TransMap.keys g := rfl

/-- A list of distinct naturals all below `n` has at most `n` elements. -/
lemma nodup_lt_length_le {l : List Nat} {n : Nat} (hnd : l.Nodup)
    (hlt : ∀ k, k ∈ l → k < n) : l.length ≤ n := by
  calc l.length = l.toFinset.card := (List.toFinset_card_of_nodup hnd).symm
    _ ≤ (Finset.range n).card := by
        apply Finset.card_le_card
        intro x hx
        exact Finset.mem_range.mpr (hlt x (List.mem_toFinset.mp hx))
    _ = n := Finset.card_range n

/-- Following `a + b` transitions is following `a`, then `b`. -/
lemma followN_add (g : TransMap) (a : Nat) :
    ∀ b s, followN g (a + b) s = (followN g a s).bind (followN g b) := by
  induction a with
  | zero => intro b s; simp [followN]
  | succ a ih =>
    intro b s
    have hs : a + 1 + b = (a + b) + 1 := by omega
    rw [hs]
    rw [followN, followN]
    cases TransMap.get g s with
    | none => simp
    | some t => simp [ih b t]

/-- Prefixes of a successful transition chain succeed. -/
lemma followN_isSome_mono (g : TransMap) {m j s : Nat} (hj : j ≤ m)
    (h : (followN g m s).isSome) : (followN g j s).isSome := by
  have hadd := followN_add g j (m - j) s
  rw [Nat.add_sub_cancel' hj] at hadd
  cases hf : followN g j s with
  | none => rw [hadd, hf] at h; simp at h
  | some t => simp

/-- Inserting a fresh key does not disturb a successful transition chain. -/
lemma followN_insert_fresh (g : TransMap) {knew : Nat} (v : Nat)
    (hfresh : knew ∉ TransMap.keys g) :
    ∀ n x y, followN g n x = some y →
      followN (TransMap.insert g knew v) n x = some y := by
  intro n
  induction n with
  | zero => intro x y h; simpa [followN] using h
  | succ n ih =>
    intro x y h
    rw [followN] at h
    cases hg : TransMap.get g x with
    | none => rw [hg] at h; simp at h
    | some t =>
      rw [hg] at h
      have hxmem : x ∈ TransMap.keys g := TransMap.get_some_mem hg
      have hne : knew ≠ x := fun he => hfresh (he ▸ hxmem)
      rw [followN, TransMap.insert, TransMap.get, if_neg hne, hg]
      exact ih t y h

/-- Main loop invariant for the executor: with enough fuel it finishes, and
the returned transition map has distinct in-bounds keys; a loop outcome
names a key of the map that lies on a recorded cycle. -/
lemma accumulate_loop_spec (instructions : List OP) (swap_op_index : Option Nat) :
    ∀ fuel acc index g, RunInv instructions g index →
      instructions.length - g.length < fuel →
      ∃ acc2 out g2,
        accumulate_loop instructions swap_op_index fuel acc index g = some (acc2, out, g2) ∧
        (TransMap.keys g2).Nodup ∧
        (∀ k, k ∈ TransMap.keys g2 → k < instructions.length) ∧
        (∀ p, out = some p → p ∈ TransMap.keys g2 ∧
          ∃ c, 0 < c ∧ followN g2 c p = some p) := by
  intro fuel
  induction fuel with
  | zero => intro acc index g _ hfuel; omega
  | succ fuel ih =>
    intro acc index g hinv hfuel
    obtain ⟨hnd, hbound, hchain, honpath⟩ := hinv
    cases hget : TransMap.get g index with
    | some v =>
      refine ⟨acc, some index, g, ?_, hnd, hbound, ?_⟩
      · simp [accumulate_loop, hget]
      · intro p hp
        cases hp
        refine ⟨TransMap.get_some_mem hget, ?_⟩
        obtain ⟨j, hj, hfj⟩ := honpath index (TransMap.get_some_mem hget)
        refine ⟨g.length - j, by omega, ?_⟩
        have hadd := followN_add g j (g.length - j) 0
        rw [Nat.add_sub_cancel' (Nat.le_of_lt hj)] at hadd
        rw [hchain, hfj] at hadd
        exact hadd.symm
    | none =>
      by_cases hlt : index < instructions.length
      · set op := instructions.get ⟨index, hlt⟩ with hop
        set r := exec_step swap_op_index op index acc with hr
        set g' := TransMap.insert g index r.2 with hg'
        have hfresh : index ∉ TransMap.keys g := TransMap.get_none_not_mem hget
        have hnd' : (TransMap.keys g').Nodup := by
          rw [hg', TransMap.keys_insert]
          exact List.nodup_cons.mpr ⟨hfresh, hnd⟩
        have hbound' : ∀ k, k ∈ TransMap.keys g' → k < instructions.length := by
          intro k hk
          rw [hg', TransMap.keys_insert] at hk
          rcases List.mem_cons.mp hk with hk | hk
          · subst hk; exact hlt
          · exact hbound k hk
        have hlen' : g'.length = g.length + 1 := by simp [hg', TransMap.insert]
        have hchainpre : followN g' g.length 0 = some index :=
          followN_insert_fresh g r.2 hfresh g.length 0 index hchain
        have hchain' : followN g' g'.length 0 = some r.2 := by
          rw [hlen', followN_add g' g.length 1 0, hchainpre]
          simp [followN, hg', TransMap.get_insert_self]
        have honpath' : ∀ q, q ∈ TransMap.keys g' →
            ∃ j, j < g'.length ∧ followN g' j 0 = some q := by
          intro q hq
          rw [hg', TransMap.keys_insert] at hq
          rcases List.mem_cons.mp hq with hq | hq
          · subst hq
            exact ⟨g.length, by omega, hchainpre⟩
          · obtain ⟨j, hj, hfj⟩ := honpath q hq
            exact ⟨j, by omega, followN_insert_fresh g r.2 hfresh j 0 q hfj⟩
        have hsize : g'.length ≤ instructions.length := by
          have := nodup_lt_length_le hnd' hbound'
          simpa [TransMap.keys] using this
        have hfuel' : instructions.length - g'.length < fuel := by omega
        obtain ⟨acc2, out, g2, heq, h1, h2, h3⟩ :=
          ih r.1 r.2 g' ⟨hnd', hbound', hchain', honpath'⟩ hfuel'
        refine ⟨acc2, out, g2, ?_, h1, h2, h3⟩
        rw [show accumulate_loop instructions swap_op_index (fuel + 1) acc index g =
          accumulate_loop instructions swap_op_index fuel r.1 r.2 g' from by
            simp [accumulate_loop, hget, hlt, hop, hr, hg']]
        exact heq
      · refine ⟨acc, none, g, ?_, hnd, hbound, ?_⟩
        · simp [accumulate_loop, hget, hlt]
        · intro p hp; cases hp

/-- Top-level executor run: fuel `length + 1` suffices, and the returned
transition map has distinct in-bounds keys; a loop outcome names a key of
the map that lies on a recorded cycle. -/
lemma accumulate_from_instructions_spec (instructions : List OP) (swap_op_index : Option Nat) :
    ∃ acc out g,
      accumulate_loop instructions swap_op_index (instructions.length + 1) 0 0 [] =
        some (acc, out, g) ∧
      accumulate_from_instructions instructions swap_op_index = (acc, out, g) ∧
      (TransMap.keys g).Nodup ∧
      (∀ k, k ∈ TransMap.keys g → k < instructions.length) ∧
      (∀ p, out = some p → p ∈ TransMap.keys g ∧ ∃ c, 0 < c ∧ followN g c p = some p) := by
  have hinv : RunInv instructions [] 0 := by
    refine ⟨List.nodup_nil, ?_, rfl, ?_⟩ <;> intro q hq <;> simp [TransMap.keys] at hq
  obtain ⟨acc, out, g, heq, h1, h2, h3⟩ :=
    accumulate_loop_spec instructions swap_op_index (instructions.length + 1) 0 0 [] hinv
      (by omega)
  exact ⟨acc, out, g, heq, by rw [accumulate_from_instructions, heq]; rfl, h1, h2, h3⟩

/-- The first recorded position of a transition chain. -/
lemma orbit_zero (g : TransMap) (s : Nat) : orbit g s 0 = s := rfl

/-- `orbit` agrees with any successful `followN` value. -/
lemma orbit_eq_of_followN {g : TransMap} {s j x : Nat} (h : followN g j s = some x) :
    orbit g s j = x := by rw [orbit, h]; rfl

/-- On a cycle through `s` of length `k`, every chain prefix succeeds and
lands on the corresponding `orbit` position. -/
lemma followN_orbit {g : TransMap} {s k : Nat} (hk : followN g k s = some s)
    {j : Nat} (hj : j ≤ k) : followN g j s = some (orbit g s j) := by
  have hs : (followN g j s).isSome := followN_isSome_mono g hj (by rw [hk]; rfl)
  cases hf : followN g j s with
  | none => rw [hf] at hs; simp at hs
  | some x => rw [orbit_eq_of_followN hf]

/-- Peeling one step off the back of a transition chain. -/
lemma followN_succ_back (g : TransMap) :
    ∀ n s, followN g (n + 1) s = (followN g n s).bind (TransMap.get g) := by
  intro n
  induction n with
  | zero =>
    intro s
    cases hg : TransMap.get g s <;> simp [followN, hg]
  | succ n ih =>
    intro s
    cases hg : TransMap.get g s with
    | none =>
      have h1 : followN g (n + 1 + 1) s = none := by rw [followN, hg]
      have h2 : followN g (n + 1) s = none := by rw [followN, hg]
      rw [h1, h2]
      rfl
    | some t =>
      have h1 : followN g (n + 1 + 1) s = followN g (n + 1) t := by rw [followN, hg]
      have h2 : followN g (n + 1) s = followN g n t := by rw [followN, hg]
      rw [h1, h2, ih t]

/-- Consecutive orbit positions on a cycle are related by the map. -/
lemma orbit_get {g : TransMap} {s k : Nat} (hk : followN g k s = some s)
    {j : Nat} (hj : j < k) : TransMap.get g (orbit g s j) = some (orbit g s (j + 1)) := by
  have h1 : followN g j s = some (orbit g s j) := followN_orbit hk (Nat.le_of_lt hj)
  have h2 : followN g (j + 1) s = some (orbit g s (j + 1)) := followN_orbit hk hj
  rw [followN_succ_back, h1] at h2
  simpa using h2

/-- The cycle closes: position `k` of the orbit is `s` again. -/
lemma orbit_start {g : TransMap} {s k : Nat} (hk : followN g k s = some s) :
    orbit g s k = s := orbit_eq_of_followN hk

/-- A strictly interior position of a minimal cycle is not the start. -/
lemma orbit_ne_start {g : TransMap} {s k : Nat} (hk : followN g k s = some s)
    (hmin : ∀ m, 0 < m → m < k → followN g m s ≠ some s)
    {m : Nat} (h0 : 0 < m) (hm : m < k) : orbit g s m ≠ s := by
  intro he
  have hfol := followN_orbit hk (Nat.le_of_lt hm)
  rw [he] at hfol
  exact hmin m h0 hm hfol

/-- Positions of a minimal cycle are pairwise distinct. -/
lemma orbit_inj {g : TransMap} {s k : Nat} (hk : followN g k s = some s)
    (hmin : ∀ m, 0 < m → m < k → followN g m s ≠ some s)
    {a b : Nat} (hab : a < b) (hbk : b < k) : orbit g s a ≠ orbit g s b := by
  intro he
  have hfb : followN g b s = some (orbit g s b) := followN_orbit hk (Nat.le_of_lt hbk)
  have hfa : followN g a s = some (orbit g s a) := followN_orbit hk (by omega)
  have hsplit := followN_add g b (k - b) s
  rw [Nat.add_sub_cancel' (Nat.le_of_lt hbk), hk, hfb] at hsplit
  simp only [Option.some_bind] at hsplit
  have hcomb := followN_add g a (k - b) s
  rw [hfa] at hcomb
  simp only [Option.some_bind] at hcomb
  rw [he, ← hsplit] at hcomb
  exact hmin (a + (k - b)) (by omega) (by omega) hcomb

/-- Length of an orbit segment. -/
lemma orbit_list_length (g : TransMap) (s : Nat) :
    ∀ n j, (orbit_list g s j n).length = n := by
  intro n
  induction n with
  | zero => intro j; rfl
  | succ n ih => intro j; simp [orbit_list, ih]

/-- Indexing into an orbit segment. -/
lemma orbit_list_getD (g : TransMap) (s : Nat) :
    ∀ n j i, i < n → (orbit_list g s j n).getD i 0 = orbit g s (j + i) := by
  intro n
  induction n with
  | zero => intro j i hi; omega
  | succ n ih =>
    intro j i hi
    cases i with
    | zero => simp [orbit_list]
    | succ i =>
      rw [orbit_list, List.getD_cons_succ]
      have harg : j + (i + 1) = (j + 1) + i := by omega
      rw [harg]
      exact ih (j + 1) i (by omega)

/-- Members of an orbit segment are orbit positions. -/
lemma orbit_list_mem (g : TransMap) (s : Nat) :
    ∀ n j x, x ∈ orbit_list g s j n → ∃ i, i < n ∧ x = orbit g s (j + i) := by
  intro n
  induction n with
  | zero => intro j x hx; simp [orbit_list] at hx
  | succ n ih =>
    intro j x hx
    rw [orbit_list] at hx
    rcases List.mem_cons.mp hx with hx | hx
    · exact ⟨0, by omega, by simpa using hx⟩
    · obtain ⟨i, hi, he⟩ := ih (j + 1) x hx
      refine ⟨i + 1, by omega, ?_⟩
      rw [he]
      congr 1
      omega

/-- An orbit segment of a minimal cycle has no duplicates. -/
lemma orbit_list_nodup {g : TransMap} {s k : Nat} (hk : followN g k s = some s)
    (hmin : ∀ m, 0 < m → m < k → followN g m s ≠ some s) :
    ∀ n j, j + n ≤ k → (orbit_list g s j n).Nodup := by
  intro n
  induction n with
  | zero => intro j _; exact List.nodup_nil
  | succ n ih =>
    intro j hjn
    rw [orbit_list]
    refine List.nodup_cons.mpr ⟨?_, ih (j + 1) (by omega)⟩
    intro hmem
    obtain ⟨i, hi, he⟩ := orbit_list_mem g s n (j + 1) _ hmem
    exact absurd he (orbit_inj hk hmin (show j < j + 1 + i by omega) (by omega))

/-- Run of the extractor loop along a minimal cycle: with enough fuel it
returns the accumulated prefix followed by the remaining orbit segment. -/
lemma extract_loop_steps_orbit {g : TransMap} {s k : Nat} (hk : followN g k s = some s)
    (hmin : ∀ m, 0 < m → m < k → followN g m s ≠ some s) :
    ∀ fuel j pre, j < k → k - j ≤ fuel →
      extract_loop_steps g s fuel (orbit g s j) pre =
        some (ExtractResult.ok (pre ++ orbit_list g s j (k - j))) := by
  intro fuel
  induction fuel with
  | zero => intro j pre hj hf; omega
  | succ fuel ih =>
    intro j pre hj hf
    have hget : TransMap.get g (orbit g s j) = some (orbit g s (j + 1)) := orbit_get hk hj
    by_cases hend : j + 1 = k
    · have hnext : orbit g s (j + 1) = s := by rw [hend]; exact orbit_start hk
      have hkj : k - j = 1 := by omega
      rw [hkj]
      simp [extract_loop_steps, hget, hnext, orbit_list]
    · have hnext : orbit g s (j + 1) ≠ s :=
        orbit_ne_start hk hmin (Nat.succ_pos j) (by omega)
      have hrec := ih (j + 1) (pre ++ [orbit g s j]) (by omega) (by omega)
      have hkj : k - j = (k - (j + 1)) + 1 := by omega
      rw [hkj, orbit_list]
      simp only [extract_loop_steps, hget, if_neg hnext]
      rw [hrec]
      simp

/-- Full specification of the loop-path extractor under its documented
precondition: the position sequence of the recorded cycle, starting at the
loop start, closing back to it, with no duplicates and consecutive entries
related by the transition map. -/
lemma extractor_spec (T : TransMap) (s : Nat)
    (hcyc : ∃ c, 0 < c ∧ followN T c s = some s) :
    ∃ path, get_possibly_broken_instructions T s = some (ExtractResult.ok path) ∧
      0 < path.length ∧ path.getD 0 0 = s ∧
      TransMap.get T (path.getD (path.length - 1) 0) = some s ∧
      path.Nodup ∧
      (∀ i, i + 1 < path.length →
        TransMap.get T (path.getD i 0) = some (path.getD (i + 1) 0)) := by
  have hspec := Nat.find_spec hcyc
  set k := Nat.find hcyc with hkdef
  have hkpos : 0 < k := hspec.1
  have hk : followN T k s = some s := hspec.2
  have hmin : ∀ m, 0 < m → m < k → followN T m s ≠ some s := by
    intro m h0 hm hfol
    exact (Nat.find_min hcyc hm) ⟨h0, hfol⟩
  have hnodup : (orbit_list T s 0 k).Nodup := orbit_list_nodup hk hmin k 0 (by omega)
  have hlen : (orbit_list T s 0 k).length = k := orbit_list_length T s k 0
  have hmemkeys : ∀ x, x ∈ orbit_list T s 0 k → x ∈ TransMap.keys T := by
    intro x hx
    obtain ⟨i, hi, he⟩ := orbit_list_mem T s k 0 x hx
    have hg := orbit_get hk (show i < k from hi)
    rw [he, show (0 : Nat) + i = i from by omega]
    exact TransMap.get_some_mem hg
  have hbound : k ≤ T.length := by
    have h1 : (orbit_list T s 0 k).toFinset.card = k := by
      rw [List.toFinset_card_of_nodup hnodup, hlen]
    have h2 : (orbit_list T s 0 k).toFinset ⊆ (TransMap.keys T).toFinset := by
      intro x hx
      exact List.mem_toFinset.mpr (hmemkeys x (List.mem_toFinset.mp hx))
    have h3 := Finset.card_le_card h2
    have h4 : (TransMap.keys T).toFinset.card ≤ (TransMap.keys T).length :=
      List.toFinset_card_le _
    have h5 : (TransMap.keys T).length = T.length := by simp [TransMap.keys]
    omega
  have hrun := extract_loop_steps_orbit hk hmin (T.length + 1) 0 [] hkpos (by omega)
  rw [orbit_zero] at hrun
  rw [show k - 0 = k from by omega] at hrun
  simp only [List.nil_append] at hrun
  refine ⟨orbit_list T s 0 k, hrun, by omega, ?_, ?_, hnodup, ?_⟩
  · rw [orbit_list_getD T s k 0 0 (by omega)]
    exact orbit_zero T s
  · rw [hlen, orbit_list_getD T s k 0 (k - 1) (by omega)]
    have hg := orbit_get hk (show k - 1 < k by omega)
    rw [show (0 : Nat) + (k - 1) = k - 1 from by omega]
    rw [hg, show k - 1 + 1 = k from by omega, orbit_start hk]
  · intro i hi
    rw [hlen] at hi
    rw [orbit_list_getD T s k 0 i (by omega), orbit_list_getD T s k 0 (i + 1) (by omega)]
    rw [show (0 : Nat) + i = i from by omega, show (0 : Nat) + (i + 1) = i + 1 from by omega]
    exact orbit_get hk (by omega)

/-- A step at a position other than the swap directive ignores the
directive. -/
lemma exec_step_other {p q : Nat} (hne : q ≠ p) (op : OP) (acc : Int) :
    exec_step (some p) op q acc = exec_step none op q acc := by
  have hpq : ¬ p = q := fun h => hne h.symm
  cases op <;> simp [exec_step, hpq]

/-- A step at the swapped position behaves like the `Jmp`↔`Nop`-inverted
instruction without a directive. -/
lemma exec_step_swap (p : Nat) (op : OP) (acc : Int) :
    exec_step (some p) op p acc = exec_step none (spec_swapOP op) p acc := by
  cases op <;> simp [exec_step, spec_swapOP]

/-- A run with swap directive `p` is the run, without directive, of the
program with the instruction at `p` replaced by its inverted form. -/
lemma accumulate_loop_swap_eq (instructions : List OP) {p : Nat}
    (hp : p < instructions.length) :
    ∀ fuel acc index g,
      accumulate_loop instructions (some p) fuel acc index g =
      accumulate_loop (instructions.set p (spec_swapOP (instructions.get ⟨p, hp⟩))) none
        fuel acc index g := by
  intro fuel
  induction fuel with
  | zero => intro acc index g; rfl
  | succ fuel ih =>
    intro acc index g
    set instructions2 := instructions.set p (spec_swapOP (instructions.get ⟨p, hp⟩)) with hI2
    have hlen : instructions2.length = instructions.length := by simp [hI2]
    cases hget : TransMap.get g index with
    | some v => simp [accumulate_loop, hget]
    | none =>
      by_cases hlt : index < instructions.length
      · have hlt2 : index < instructions2.length := by omega
        have hstep : exec_step (some p) (instructions.get ⟨index, hlt⟩) index acc =
            exec_step none (instructions2.get ⟨index, hlt2⟩) index acc := by
          by_cases hip : index = p
          · subst hip
            have hgot : instructions2.get ⟨index, hlt2⟩ =
                spec_swapOP (instructions.get ⟨index, hlt⟩) := by
              simp [hI2]
            rw [hgot]
            exact exec_step_swap index _ acc
          · have hgot : instructions2.get ⟨index, hlt2⟩ = instructions.get ⟨index, hlt⟩ := by
              simp [hI2, List.getElem_set_ne (fun h : p = index => hip h.symm)]
            rw [hgot]
            exact exec_step_other hip _ acc
        rw [show accumulate_loop instructions (some p) (fuel + 1) acc index g =
            accumulate_loop instructions (some p) fuel
              (exec_step (some p) (instructions.get ⟨index, hlt⟩) index acc).1
              (exec_step (some p) (instructions.get ⟨index, hlt⟩) index acc).2
              (TransMap.insert g index
                (exec_step (some p) (instructions.get ⟨index, hlt⟩) index acc).2)
          from by simp [accumulate_loop, hget, hlt]]
        rw [show accumulate_loop instructions2 none (fuel + 1) acc index g =
            accumulate_loop instructions2 none fuel
              (exec_step none (instructions2.get ⟨index, hlt2⟩) index acc).1
              (exec_step none (instructions2.get ⟨index, hlt2⟩) index acc).2
              (TransMap.insert g index
                (exec_step none (instructions2.get ⟨index, hlt2⟩) index acc).2)
          from by simp [accumulate_loop, hget, hlt2]]
        rw [hstep]
        exact ih _ _ _
      · have hlt2 : ¬ index < instructions2.length := by omega
        simp [accumulate_loop, hget, hlt, hlt2]

/-- Equation: exhausted candidate list. -/
lemma fix_loop_nil (instructions : List OP) :
    fix_loop instructions [] = FixResult.panicked := rfl

/-- Equation: out-of-bounds candidate. -/
lemma fix_loop_cons_none {instructions : List OP} {c : Nat}
    (hc : instructions[c]? = none) (rest : List Nat) :
    fix_loop instructions (c :: rest) = FixResult.panicked := by
  simp [fix_loop, hc]

/-- Equation: an `Acc` candidate is skipped. -/
lemma fix_loop_cons_acc {instructions : List OP} {c : Nat} {num : Int}
    (hc : instructions[c]? = some (OP.Acc num)) (rest : List Nat) :
    fix_loop instructions (c :: rest) = fix_loop instructions rest := by
  simp [fix_loop, hc]

/-- Equation: a tried candidate whose swapped run terminates returns its
accumulator. -/
lemma fix_loop_cons_try_value {instructions : List OP} {c : Nat} {op : OP}
    (hc : instructions[c]? = some op) (hacc : op.is_acc = false)
    (hterm : (accumulate_from_instructions instructions (some c)).2.1 = none)
    (rest : List Nat) :
    fix_loop instructions (c :: rest) =
      FixResult.value (accumulate_from_instructions instructions (some c)).1 := by
  cases op with
  | Acc num => simp [OP.is_acc] at hacc
  | Jmp num => simp [fix_loop, hc, hterm]
  | Nop num => simp [fix_loop, hc, hterm]

/-- Equation: a tried candidate whose swapped run still loops is passed
over. -/
lemma fix_loop_cons_try_loops {instructions : List OP} {c : Nat} {op : OP}
    (hc : instructions[c]? = some op) (hacc : op.is_acc = false)
    {q : Nat} (hloop : (accumulate_from_instructions instructions (some c)).2.1 = some q)
    (rest : List Nat) :
    fix_loop instructions (c :: rest) = fix_loop instructions rest := by
  cases op with
  | Acc num => simp [OP.is_acc] at hacc
  | Jmp num => simp [fix_loop, hc, hloop]
  | Nop num => simp [fix_loop, hc, hloop]

/-- The candidate loop returns `value a` exactly when some candidate fixes
the program with accumulator `a` and every earlier candidate was skipped
(`Acc`) or was tried and still looped. -/
lemma fix_loop_value_iff (instructions : List OP) :
    ∀ cands a, fix_loop instructions cands = FixResult.value a ↔
      ∃ pre ci post, cands = pre ++ ci :: post ∧
        (∀ cj ∈ pre, candidate_skipped instructions cj ∨ candidate_loops instructions cj) ∧
        candidate_fixes instructions ci ∧
        a = (accumulate_from_instructions instructions (some ci)).1 := by
  intro cands
  induction cands with
  | nil =>
    intro a
    constructor
    · intro h
      simp [fix_loop] at h
    · rintro ⟨pre, ci, post, heq, -, -, -⟩
      cases pre <;> simp at heq
  | cons c rest ih =>
    intro a
    cases hc : instructions[c]? with
    | none =>
      rw [fix_loop_cons_none hc rest]
      constructor
      · intro h; simp at h
      · rintro ⟨pre, ci, post, heq, hpre, hfix, -⟩
        exfalso
        cases pre with
        | nil =>
          simp at heq
          obtain ⟨h1, -⟩ := heq
          have hx := hfix.1
          rw [← h1, hc] at hx
          simp at hx
        | cons c0 pre2 =>
          simp at heq
          obtain ⟨h1, -⟩ := heq
          rcases hpre c0 (List.mem_cons_self c0 pre2) with hs | hl
          · rw [candidate_skipped, ← h1, hc] at hs
            simp at hs
          · have hx := hl.1
            rw [← h1, hc] at hx
            simp at hx
    | some op =>
      cases op with
      | Acc num =>
        rw [fix_loop_cons_acc hc rest, ih a]
        constructor
        · rintro ⟨pre, ci, post, heq, hpre, hfix, hval⟩
          refine ⟨c :: pre, ci, post, by rw [heq]; rfl, ?_, hfix, hval⟩
          intro cj hcj
          rcases List.mem_cons.mp hcj with hcj | hcj
          · subst hcj
            exact Or.inl (by rw [candidate_skipped, hc]; rfl)
          · exact hpre cj hcj
        · rintro ⟨pre, ci, post, heq, hpre, hfix, hval⟩
          cases pre with
          | nil =>
            exfalso
            simp at heq
            obtain ⟨h1, -⟩ := heq
            have hx := hfix.1
            rw [← h1, hc] at hx
            simp [OP.is_acc] at hx
          | cons c0 pre2 =>
            simp at heq
            obtain ⟨-, h2⟩ := heq
            exact ⟨pre2, ci, post, h2,
              fun cj hcj => hpre cj (List.mem_cons_of_mem c0 hcj), hfix, hval⟩
      | Jmp num =>
        cases hr : (accumulate_from_instructions instructions (some c)).2.1 with
        | none =>
          rw [fix_loop_cons_try_value hc (by simp [OP.is_acc]) hr rest]
          constructor
          · intro h
            simp only [FixResult.value.injEq] at h
            refine ⟨[], c, rest, rfl, ?_, ⟨by rw [hc]; rfl, hr⟩, h.symm⟩
            intro cj hcj
            simp at hcj
          · rintro ⟨pre, ci, post, heq, hpre, hfix, hval⟩
            cases pre with
            | nil =>
              simp at heq
              obtain ⟨h1, -⟩ := heq
              rw [hval, ← h1]
            | cons c0 pre2 =>
              exfalso
              simp at heq
              obtain ⟨h1, -⟩ := heq
              rcases hpre c0 (List.mem_cons_self c0 pre2) with hs | hl
              · rw [candidate_skipped, ← h1, hc] at hs
                simp [OP.is_acc] at hs
              · have hx := hl.2
                rw [← h1, hr] at hx
                exact hx rfl
        | some q =>
          rw [fix_loop_cons_try_loops hc (by simp [OP.is_acc]) hr rest, ih a]
          constructor
          · rintro ⟨pre, ci, post, heq, hpre, hfix, hval⟩
            refine ⟨c :: pre, ci, post, by rw [heq]; rfl, ?_, hfix, hval⟩
            intro cj hcj
            rcases List.mem_cons.mp hcj with hcj | hcj
            · subst hcj
              exact Or.inr ⟨by rw [hc]; rfl, by rw [hr]; simp⟩
            · exact hpre cj hcj
          · rintro ⟨pre, ci, post, heq, hpre, hfix, hval⟩
            cases pre with
            | nil =>
              exfalso
              simp at heq
              obtain ⟨h1, -⟩ := heq
              have hx := hfix.2
              rw [← h1, hr] at hx
              simp at hx
            | cons c0 pre2 =>
              simp at heq
              obtain ⟨-, h2⟩ := heq
              exact ⟨pre2, ci, post, h2,
                fun cj hcj => hpre cj (List.mem_cons_of_mem c0 hcj), hfix, hval⟩
      | Nop num =>
        cases hr : (accumulate_from_instructions instructions (some c)).2.1 with
        | none =>
          rw [fix_loop_cons_try_value hc (by simp [OP.is_acc]) hr rest]
          constructor
          · intro h
            simp only [FixResult.value.injEq] at h
            refine ⟨[], c, rest, rfl, ?_, ⟨by rw [hc]; rfl, hr⟩, h.symm⟩
            intro cj hcj
            simp at hcj
          · rintro ⟨pre, ci, post, heq, hpre, hfix, hval⟩
            cases pre with
            | nil =>
              simp at heq
              obtain ⟨h1, -⟩ := heq
              rw [hval, ← h1]
            | cons c0 pre2 =>
              exfalso
              simp at heq
              obtain ⟨h1, -⟩ := heq
              rcases hpre c0 (List.mem_cons_self c0 pre2) with hs | hl
              · rw [candidate_skipped, ← h1, hc] at hs
                simp [OP.is_acc] at hs
              · have hx := hl.2
                rw [← h1, hr] at hx
                exact hx rfl
        | some q =>
          rw [fix_loop_cons_try_loops hc (by simp [OP.is_acc]) hr rest, ih a]
          constructor
          · rintro ⟨pre, ci, post, heq, hpre, hfix, hval⟩
            refine ⟨c :: pre, ci, post, by rw [heq]; rfl, ?_, hfix, hval⟩
            intro cj hcj
            rcases List.mem_cons.mp hcj with hcj | hcj
            · subst hcj
              exact Or.inr ⟨by rw [hc]; rfl, by rw [hr]; simp⟩
            · exact hpre cj hcj
          · rintro ⟨pre, ci, post, heq, hpre, hfix, hval⟩
            cases pre with
            | nil =>
              exfalso
              simp at heq
              obtain ⟨h1, -⟩ := heq
              have hx := hfix.2
              rw [← h1, hr] at hx
              simp at hx
            | cons c0 pre2 =>
              simp at heq
              obtain ⟨-, h2⟩ := heq
              exact ⟨pre2, ci, post, h2,
                fun cj hcj => hpre cj (List.mem_cons_of_mem c0 hcj), hfix, hval⟩

/-- If no candidate fixes the program, the candidate loop exhausts the list
and hits the out-of-bounds panic. -/
lemma fix_loop_exhaust (instructions : List OP) :
    ∀ cands, (∀ ci, ci ∈ cands → ¬ candidate_fixes instructions ci) →
      fix_loop instructions cands = FixResult.panicked := by
  intro cands
  induction cands with
  | nil => intro h; rfl
  | cons c rest ih =>
    intro h
    have hrest : ∀ ci, ci ∈ rest → ¬ candidate_fixes instructions ci :=
      fun ci hci => h ci (List.mem_cons_of_mem c hci)
    cases hc : instructions[c]? with
    | none => exact fix_loop_cons_none hc rest
    | some op =>
      cases hisacc : op.is_acc with
      | true =>
        cases op with
        | Acc num => rw [fix_loop_cons_acc hc rest]; exact ih hrest
        | Jmp num => simp [OP.is_acc] at hisacc
        | Nop num => simp [OP.is_acc] at hisacc
      | false =>
        cases hr : (accumulate_from_instructions instructions (some c)).2.1 with
        | none =>
          exact absurd ⟨by rw [hc]; simp [hisacc], hr⟩
            (h c (List.mem_cons_self c rest))
        | some q =>
          rw [fix_loop_cons_try_loops hc hisacc hr rest]
          exact ih hrest

/-- Step 1 of the repair search: a normally terminating unswapped run
returns its accumulator immediately. -/
lemma repair_terminated (instructions : List OP) {acc : Int} {g : TransMap}
    (h : accumulate_from_instructions instructions none = (acc, none, g)) :
    accumulate_and_fix_broken_instruction instructions = FixResult.value acc := by
  simp [accumulate_and_fix_broken_instruction, h]

/-- Steps 2–3 wiring of the repair search: a looping unswapped run hands
the extractor's loop path to the candidate loop. -/
lemma repair_looped (instructions : List OP) {acc : Int} {p : Nat} {g : TransMap}
    (h : accumulate_from_instructions instructions none = (acc, some p, g)) :
    ∃ path, get_possibly_broken_instructions g p = some (ExtractResult.ok path) ∧
      accumulate_and_fix_broken_instruction instructions = fix_loop instructions path := by
  obtain ⟨acc2, out, g2, -, heq2, -, -, hloop⟩ :=
    accumulate_from_instructions_spec instructions none
  have hpair : (acc2, out, g2) = (acc, some p, g) := by rw [← heq2, ← h]
  have he2 : out = some p := congrArg (fun t => t.2.1) hpair
  have he3 : g2 = g := congrArg (fun t => t.2.2) hpair
  obtain ⟨-, hcyc⟩ := hloop p he2
  rw [he3] at hcyc
  obtain ⟨path, hex, -, -, -, -, -⟩ := extractor_spec g p hcyc
  exact ⟨path, hex, by simp [accumulate_and_fix_broken_instruction, h, hex]⟩

/-- Fidelity of `jump_index`: on the program's input domain (`change` a
representable `i64`, `index` a `u32`) the definition coincides with the
literal translation of the source under wrapping `i64` arithmetic — wrap
the exact sum into `i64`, test the sign, truncate to `u32`. -/
lemma jump_index_eq_i64_wrap (index : Nat) (change : Int)
    (hi : index < 4294967296)
    (hlo : -9223372036854775808 ≤ change) (hhi : change < 9223372036854775808) :
    jump_index index change =
      if 0 ≤ i64_wrap (change + (index : Int))
      then (i64_wrap (change + (index : Int))).toNat % 4294967296 else 0 := by
  simp only [jump_index, i64_wrap]
  split_ifs with h1 h2 <;> omega

/-- C1 (amended): at a position other than the swap position one executor
step behaves as: `Acc(delta)` adds `delta` to the accumulator and advances
to `position+1`; `Jmp(offset)` leaves the accumulator unchanged and moves
to `position+offset`, clamped to a minimum of `0` when the computed
position is negative, provided `position+offset < 2^32` (beyond that the
`u32` cast reduces the value modulo `2^32`); `Nop(_)` leaves the
accumulator unchanged and advances to `position+1`. -/
theorem C1_step_semantics (swap_op_index : Option Nat) (p : Nat) (acc : Int)
    (hswap : swap_op_index ≠ some p) :
    (∀ d, exec_step swap_op_index (OP.Acc d) p acc = (acc + d, p + 1)) ∧
    (∀ o, (p : Int) + o < 4294967296 →
      exec_step swap_op_index (OP.Jmp o) p acc =
        (acc, if (p : Int) + o < 0 then 0 else ((p : Int) + o).toNat)) ∧
    (∀ o, exec_step swap_op_index (OP.Nop o) p acc = (acc, p + 1)) := by
  have hswapcase : ∀ o : Int,
      exec_step swap_op_index (OP.Jmp o) p acc = (acc, jump_index p o) ∧
      exec_step swap_op_index (OP.Nop o) p acc = (acc, nop_index p) := by
    intro o
    cases swap_op_index with
    | none => exact ⟨rfl, rfl⟩
    | some si =>
      have hne : ¬ si = p := fun he => hswap (by rw [he])
      constructor <;> simp [exec_step, hne]
  refine ⟨fun d => rfl, ?_, fun o => (hswapcase o).2⟩
  intro o ho
  rw [(hswapcase o).1]
  have hj : jump_index p o =
      if (p : Int) + o < 0 then 0 else ((p : Int) + o).toNat := by
    simp only [jump_index]
    split_ifs with h1 h2 <;> omega
  rw [hj]

/-- Witness for C1 at no directive, position `0`, accumulator `0`. -/
theorem C1_step_semantics_witness :
    (none ≠ some 0) ∧
    exec_step none (OP.Acc 5) 0 0 = (0 + 5, 0 + 1) ∧
    ((0 : Nat) : Int) + 1 < 4294967296 ∧
    exec_step none (OP.Jmp 1) 0 0 =
      (0, if ((0 : Nat) : Int) + 1 < 0 then 0 else (((0 : Nat) : Int) + 1).toNat) ∧
    exec_step none (OP.Nop 1) 0 0 = (0, 0 + 1) := by
  have h := C1_step_semantics none 0 0 (by decide)
  exact ⟨by decide, h.1 5, by decide, h.2.1 1 (by decide), h.2.2 1⟩

/-- C1 counterexample: at position `0` a `Jmp 4294967296` (a representable
`i64` operand) makes the code compute next position `0` — the `u32` cast
wraps — not position `4294967296` as the claim's clamp-only description
predicts. -/
theorem C1_counterexample :
    exec_step none (OP.Jmp 4294967296) 0 0 ≠
      (0, if ((0 : Nat) : Int) + 4294967296 < 0 then 0
          else (((0 : Nat) : Int) + 4294967296).toNat) := by
  decide

/-- C2: a run with swap directive at `p` (holding a `Jmp` or `Nop`) inverts
exactly that instruction's behavior with its operand unchanged — a swapped
`Jmp` steps to `p+1` like a `Nop`, a swapped `Nop` steps through
`jump_index` on its own operand like a `Jmp`, and a step at any other
position is as without the directive — hence the whole run equals the
unswapped run of the program with the single instruction at `p` inverted. -/
theorem C2_swap_inversion (instructions : List OP) (p : Nat) (acc : Int) :
    (∀ o, exec_step (some p) (OP.Jmp o) p acc = (acc, nop_index p)) ∧
    (∀ o, exec_step (some p) (OP.Nop o) p acc = (acc, jump_index p o)) ∧
    (∀ q op, q ≠ p → exec_step (some p) op q acc = exec_step none op q acc) ∧
    (∀ hp : p < instructions.length,
      (instructions.get ⟨p, hp⟩).is_acc = false →
      accumulate_from_instructions instructions (some p) =
        accumulate_from_instructions
          (instructions.set p (spec_swapOP (instructions.get ⟨p, hp⟩))) none) := by
  refine ⟨fun o => by simp [exec_step], fun o => by simp [exec_step],
    fun q op hq => exec_step_other hq op acc, ?_⟩
  intro hp hacc
  rw [accumulate_from_instructions, accumulate_from_instructions,
    accumulate_loop_swap_eq instructions hp (instructions.length + 1) 0 0 [],
    List.length_set]

/-- Witness for C2 on the program `[Jmp 1, Nop 0]` with directive `0`. -/
theorem C2_swap_inversion_witness :
    (exec_step (some 0) (OP.Jmp 1) 0 0 = (0, nop_index 0)) ∧
    (exec_step (some 0) (OP.Nop 1) 0 0 = (0, jump_index 0 1)) ∧
    (exec_step (some 0) (OP.Acc 2) 1 0 = exec_step none (OP.Acc 2) 1 0) ∧
    accumulate_from_instructions [OP.Jmp 1, OP.Nop 0] (some 0) =
      accumulate_from_instructions ([OP.Jmp 1, OP.Nop 0].set 0
        (spec_swapOP ([OP.Jmp 1, OP.Nop 0].get ⟨0, by decide⟩))) none := by
  have h := C2_swap_inversion [OP.Jmp 1, OP.Nop 0] 0 0
  exact ⟨h.1 1, h.2.1 1, h.2.2.1 1 (OP.Acc 2) (by decide), h.2.2.2 (by decide) (by decide)⟩

/-- C3: in every executor run each position is inserted as a key of the
transition map at most once (the returned key list has no duplicate), and a
loop outcome `some p` reports a position that is already a key of the
returned map — the map as built before the repeated visit, so `p` occurs
exactly once among its keys. -/
theorem C3_first_visit_invariant (instructions : List OP) (swap_op_index : Option Nat) :
    (TransMap.keys (accumulate_from_instructions instructions swap_op_index).2.2).Nodup ∧
    ∀ p, (accumulate_from_instructions instructions swap_op_index).2.1 = some p →
      p ∈ TransMap.keys (accumulate_from_instructions instructions swap_op_index).2.2 := by
  obtain ⟨acc, out, g, -, heq, hnd, -, hloop⟩ :=
    accumulate_from_instructions_spec instructions swap_op_index
  rw [heq]
  exact ⟨hnd, fun p hp => (hloop p hp).1⟩

/-- Witness for C3 on the self-looping program `[Jmp 0]`. -/
theorem C3_first_visit_invariant_witness :
    (TransMap.keys (accumulate_from_instructions [OP.Jmp 0] none).2.2).Nodup ∧
    0 ∈ TransMap.keys (accumulate_from_instructions [OP.Jmp 0] none).2.2 := by
  have h := C3_first_visit_invariant [OP.Jmp 0] none
  exact ⟨h.1, h.2 0 (by decide)⟩

/-- C4: the repair search returns the unswapped run's accumulator when that
run terminates normally; otherwise it extracts the loop path and hands it,
in extractor order, to the candidate loop, which returns the accumulator of
the first candidate that is not an `Acc` and whose swapped run terminates
normally, skipping `Acc` positions and candidates whose swapped run still
loops. -/
theorem C4_repair_search (instructions : List OP) :
    (∀ acc g, accumulate_from_instructions instructions none = (acc, none, g) →
      accumulate_and_fix_broken_instruction instructions = FixResult.value acc) ∧
    (∀ acc p g, accumulate_from_instructions instructions none = (acc, some p, g) →
      ∃ path, get_possibly_broken_instructions g p = some (ExtractResult.ok path) ∧
        accumulate_and_fix_broken_instruction instructions = fix_loop instructions path) ∧
    (∀ cands a, fix_loop instructions cands = FixResult.value a ↔
      ∃ pre ci post, cands = pre ++ ci :: post ∧
        (∀ cj ∈ pre, candidate_skipped instructions cj ∨ candidate_loops instructions cj) ∧
        candidate_fixes instructions ci ∧
        a = (accumulate_from_instructions instructions (some ci)).1) :=
  ⟨fun _ _ h => repair_terminated instructions h,
   fun _ _ _ h => repair_looped instructions h,
   fix_loop_value_iff instructions⟩

/-- Witness for C4: the empty (terminating) program, the self-looping
program `[Jmp 0]`, and its candidate list `[0]`. -/
theorem C4_repair_search_witness :
    accumulate_and_fix_broken_instruction ([] : List OP) = FixResult.value 0 ∧
    (∃ path, get_possibly_broken_instructions [(0, 0)] 0 = some (ExtractResult.ok path) ∧
      accumulate_and_fix_broken_instruction [OP.Jmp 0] = fix_loop [OP.Jmp 0] path) ∧
    (fix_loop [OP.Jmp 0] [0] = FixResult.value 0 ↔
      ∃ pre ci post, ([0] : List Nat) = pre ++ ci :: post ∧
        (∀ cj ∈ pre, candidate_skipped [OP.Jmp 0] cj ∨ candidate_loops [OP.Jmp 0] cj) ∧
        candidate_fixes [OP.Jmp 0] ci ∧
        (0 : Int) = (accumulate_from_instructions [OP.Jmp 0] (some ci)).1) :=
  ⟨(C4_repair_search ([] : List OP)).1 0 [] (by decide),
   (C4_repair_search [OP.Jmp 0]).2.1 0 0 [(0, 0)] (by decide),
   (C4_repair_search [OP.Jmp 0]).2.2 [0] 0⟩

/-- C5: for every non-empty program and any swap directive the executor
loop finishes — with a terminated or a looped outcome — within `N+1`
iterations: fuel `N+1` already returns the run's result. -/
theorem C5_termination (instructions : List OP) (swap_op_index : Option Nat)
    (hne : 0 < instructions.length) :
    accumulate_loop instructions swap_op_index (instructions.length + 1) 0 0 [] =
      some (accumulate_from_instructions instructions swap_op_index) := by
  obtain ⟨acc, out, g, heq, hres, -, -, -⟩ :=
    accumulate_from_instructions_spec instructions swap_op_index
  rw [heq, hres]

/-- Witness for C5 on the one-instruction program `[Acc 7]`. -/
theorem C5_termination_witness :
    0 < [OP.Acc 7].length ∧
    accumulate_loop [OP.Acc 7] none ([OP.Acc 7].length + 1) 0 0 [] =
      some (accumulate_from_instructions [OP.Acc 7] none) :=
  ⟨by decide, C5_termination [OP.Acc 7] none (by decide)⟩

/-- C6: whenever following the transition map from `loop_start` returns to
`loop_start`, the extractor returns the ordered cycle: its first element is
`loop_start`, the map sends its last element back to `loop_start`, no
element repeats, and consecutive elements are related by the map. -/
theorem C6_loop_path (T : TransMap) (s : Nat)
    (hcyc : ∃ c, 0 < c ∧ followN T c s = some s) :
    ∃ path, get_possibly_broken_instructions T s = some (ExtractResult.ok path) ∧
      0 < path.length ∧ path.getD 0 0 = s ∧
      TransMap.get T (path.getD (path.length - 1) 0) = some s ∧
      path.Nodup ∧
      (∀ i, i + 1 < path.length →
        TransMap.get T (path.getD i 0) = some (path.getD (i + 1) 0)) :=
  extractor_spec T s hcyc

/-- Witness for C6 on the one-entry cycle `[(0, 0)]`. -/
theorem C6_loop_path_witness :
    ∃ path, get_possibly_broken_instructions [(0, 0)] 0 = some (ExtractResult.ok path) ∧
      0 < path.length ∧ path.getD 0 0 = 0 ∧
      TransMap.get [(0, 0)] (path.getD (path.length - 1) 0) = some 0 ∧
      path.Nodup ∧
      (∀ i, i + 1 < path.length →
        TransMap.get [(0, 0)] (path.getD i 0) = some (path.getD (i + 1) 0)) :=
  C6_loop_path [(0, 0)] 0 ⟨1, by decide, by decide⟩

/-- C7: on the spec's scenario-A program the unswapped run detects a loop
at position `1` with accumulator `5`; position `7` holds the `jmp -4`, and
the repair terminates normally with accumulator `8`, the value of the run
with the swap directive at `7` (the `jmp` behaving as a `nop`). -/
theorem C7_scenario_a :
    (accumulate_from_instructions scenario_a none).1 = 5 ∧
    (accumulate_from_instructions scenario_a none).2.1 = some 1 ∧
    scenario_a[7]? = some (OP.Jmp (-4)) ∧
    accumulate_and_fix_broken_instruction scenario_a = FixResult.value 8 ∧
    (accumulate_from_instructions scenario_a (some 7)).2.1 = none ∧
    (accumulate_from_instructions scenario_a (some 7)).1 = 8 :=
  ⟨by decide, by decide, by decide, by decide, by decide, by decide⟩

/-- C8 (amended): when the unswapped run loops and no loop-path candidate
swap terminates normally, the repair search exhausts the candidate list and
fails fast with an index-out-of-bounds panic (modelled `panicked`) — it
neither loops forever nor returns a value. -/
theorem C8_exhaustion_panics (instructions : List OP) (acc : Int) (p : Nat)
    (g : TransMap) (path : List Nat)
    (hrun : accumulate_from_instructions instructions none = (acc, some p, g))
    (hpath : get_possibly_broken_instructions g p = some (ExtractResult.ok path))
    (hnofix : ∀ ci, ci ∈ path → ¬ candidate_fixes instructions ci) :
    accumulate_and_fix_broken_instruction instructions = FixResult.panicked := by
  obtain ⟨path2, hpath2, hfl⟩ := repair_looped instructions hrun
  have hpe : path2 = path := by
    rw [hpath] at hpath2
    have h1 : ExtractResult.ok path = ExtractResult.ok path2 := Option.some.inj hpath2
    exact (ExtractResult.ok.inj h1).symm
  rw [hfl, hpe]
  exact fix_loop_exhaust instructions path hnofix

/-- Witness for C8 (amended) on the unfixable program. -/
theorem C8_exhaustion_panics_witness :
    accumulate_and_fix_broken_instruction scenario_unfixable = FixResult.panicked :=
  C8_exhaustion_panics scenario_unfixable 0 0 [(2, 0), (0, 2)] [0, 2]
    (by decide) (by decide)
    (fun ci hci => by
      rcases List.mem_cons.mp hci with h | h
      · subst h
        intro hfix
        exact absurd hfix.2 (by decide)
      · rcases List.mem_cons.mp h with h2 | h2
        · subst h2
          intro hfix
          exact absurd hfix.2 (by decide)
        · simp at h2)

/-- C8 counterexample: on the concrete looping program
`[Jmp 2, Acc 1, Jmp -2, Jmp -3]` no loop-path swap terminates, and the
repair search panics (out-of-bounds indexing, modelled `panicked`) instead
of reporting an explicit failure as the claim states. -/
theorem C8_counterexample :
    accumulate_and_fix_broken_instruction scenario_unfixable = FixResult.panicked ∧
    FixResult.panicked ≠ FixResult.diverged ∧
    (∀ a : Int, FixResult.panicked ≠ FixResult.value a) := by
  refine ⟨by decide, by decide, fun a h => by cases h⟩

/-- C9: under its precondition the extractor's unchecked lookup never
reaches the error branch (the run returns an `ok` path); when `loop_start`
is absent from the map the extractor fails fast on the very first lookup —
the modelled `unwrap` panic — rather than looping forever. -/
theorem C9_extractor_safety :
    (∀ T s, (∃ c, 0 < c ∧ followN T c s = some s) →
      ∃ path, get_possibly_broken_instructions T s = some (ExtractResult.ok path)) ∧
    (∀ T s, TransMap.get T s = none →
      get_possibly_broken_instructions T s = some ExtractResult.panicked) := by
  constructor
  · intro T s hcyc
    obtain ⟨path, hex, -, -, -, -, -⟩ := extractor_spec T s hcyc
    exact ⟨path, hex⟩
  · intro T s hnone
    rw [get_possibly_broken_instructions]
    simp [extract_loop_steps, hnone]

/-- Witness for C9: the one-entry cycle and the empty map. -/
theorem C9_extractor_safety_witness :
    (∃ path, get_possibly_broken_instructions [(0, 0)] 0 = some (ExtractResult.ok path)) ∧
    get_possibly_broken_instructions [] 0 = some ExtractResult.panicked :=
  ⟨C9_extractor_safety.1 [(0, 0)] 0 ⟨1, by decide, by decide⟩,
   C9_extractor_safety.2 [] 0 (by decide)⟩

/-- C10 (amended): for a `u32` position `p` and offset `o` whose exact sum
stays below `2^63` (no `i64` overflow), `jump_index` returns `0` when the
exact sum `p + o` is negative and otherwise `(p + o) mod 2^32` (the
truncating `as u32` cast); in particular some sums at or above `2^32` come
back reduced, not equal to `p + o`.  For representable sums at or above
`2^63` the `i64` addition itself overflows — wrapping to a negative sum
that yields `0` in a release build, panicking in a debug build — so the
result is not `(p + o) mod 2^32` there. -/
theorem C10_jump_index_cast (p : Nat) (o : Int) (hp : p < 4294967296)
    (ho : (p : Int) + o < 9223372036854775808) :
    (jump_index p o =
      if (p : Int) + o < 0 then 0 else ((p : Int) + o).toNat % 4294967296) ∧
    (∃ (q : Nat) (off : Int), (4294967296 : Int) ≤ (q : Int) + off ∧
      jump_index q off = (((q : Int) + off)).toNat % 4294967296 ∧
      jump_index q off ≠ ((q : Int) + off).toNat) := by
  constructor
  · simp only [jump_index]
    split_ifs with h1 h2 <;> omega
  · exact ⟨0, 4294967296, by decide, by decide, by decide⟩

/-- Witness for C10 at `p = 0`, `o = -5`. -/
theorem C10_jump_index_cast_witness :
    (0 : Nat) < 4294967296 ∧
    ((0 : Nat) : Int) + (-5) < 9223372036854775808 ∧
    (jump_index 0 (-5) =
      if ((0 : Nat) : Int) + (-5) < 0 then 0
      else (((0 : Nat) : Int) + (-5)).toNat % 4294967296) ∧
    (∃ (q : Nat) (off : Int), (4294967296 : Int) ≤ (q : Int) + off ∧
      jump_index q off = (((q : Int) + off)).toNat % 4294967296 ∧
      jump_index q off ≠ ((q : Int) + off).toNat) := by
  have h := C10_jump_index_cast 0 (-5) (by decide) (by decide)
  exact ⟨by decide, by decide, h.1, h.2⟩

/-- C10 counterexample: at `p = 2` with `o = i64::MAX = 2^63 - 1` (both
representable) the exact sum `2^63 + 1` is non-negative, yet the code does
not return `(p + o) mod 2^32 = 1`: the `i64` addition overflows, the
wrapped sum is negative, and the result is `0` (release; a debug build
panics), refuting the claim's unrestricted `mod 2^32` formula. -/
theorem C10_counterexample :
    jump_index 2 9223372036854775807 ≠
      (if ((2 : Nat) : Int) + 9223372036854775807 < 0 then 0
       else (((2 : Nat) : Int) + 9223372036854775807).toNat % 4294967296) := by
  decide
